import Mathlib

/-!
Verification of the ATmega32U4 USB device-controller driver
(`mcu/atmega-hal/src/usb.rs`).

The driver is shallowly embedded: the software endpoint table, the
allocation logic, the data-path (`write`/`read`), the event extraction
(`poll`) and the interrupt-flag-clearing helpers are translated into
executable Lean functions.  MMIO registers are modelled by explicit
hardware-state records holding the values the driver would read, and by
lists of recorded register writes.  Hardware is modelled as cooperative
where the driver itself assumes it is: the UENUM read-back equals the
value written, CFGOK reads set after a legal configuration, and the
PLOCK spin terminates (these are the assumptions under which the Rust
code does not panic and its loops terminate).
-/

namespace AvrUsb

/-- Number of hardware endpoint slots (`MAX_ENDPOINTS` in the source). -/
def MAX_ENDPOINTS : Nat := 7

/-- `usb_device::UsbDirection`. -/
inductive UsbDirection
  | In
  | Out
deriving DecidableEq, Repr

/-- `usb_device::endpoint::EndpointType`.  The isochronous
synchronization/usage parameters are irrelevant to this driver (it only
matches on the constructor), so the constructor is modelled without
fields. -/
inductive EndpointType
  | control
  | isochronous
  | bulk
  | interrupt
deriving DecidableEq, Repr

/-- `usb_device::UsbError` (the variants this driver produces). -/
inductive UsbError
  | InvalidEndpoint
  | InvalidState
  | WouldBlock
  | BufferOverflow
  | EndpointMemoryOverflow
  | Unsupported
deriving DecidableEq, Repr

/-- `usb_device::endpoint::EndpointAddress`, as the pair produced by
`EndpointAddress::from_parts(index, dir)`. -/
structure EndpointAddress where
  index : Nat
  direction : UsbDirection
deriving DecidableEq, Repr

/-- `EndpointTableEntry` from the source: the software record of one
allocated endpoint.  `max_packet_size` is a `u16` in the source; it is
modelled as `Nat` (it is only ever compared, never wrapped). -/
structure EndpointTableEntry where
  ep_type : EndpointType
  ep_dir : UsbDirection
  max_packet_size : Nat
deriving DecidableEq, Repr

deriving instance DecidableEq for Except

/-- The endpoint table: `[Option<EndpointTableEntry>; MAX_ENDPOINTS]`.
A list of length 7 everywhere it is used. -/
def EndpointTable := List (Option EndpointTableEntry)

instance : DecidableEq EndpointTable := by
  unfold EndpointTable
  infer_instance

/-- `ENDPOINT_MAX_BUFSIZE` from the source (datasheet section 22.1):
fixed per-slot capacities.  The source indexes an array of length 7;
indices are always in range at the call sites, so the out-of-range
default 0 is never observable. -/
def ENDPOINT_MAX_BUFSIZE (index : Nat) : Nat :=
  [64, 256, 64, 64, 64, 64, 64].getD index 0

/-- `eptype_bits_from_ep_type`: UECFG0X.EPTYPE encoding
(datasheet section 22.18.2). -/
def eptype_bits_from_ep_type (ep_type : EndpointType) : Nat :=
  match ep_type with
  | .control => 0b00
  | .isochronous => 0b01
  | .bulk => 0b10
  | .interrupt => 0b11

/-- `epdir_bit_from_direction`: UECFG0X.EPDIR encoding. -/
def epdir_bit_from_direction (direction : UsbDirection) : Bool :=
  match direction with
  | .In => true
  | .Out => false

/-- One step of `u16::next_power_of_two`: scanning exponents `k-1, ...,
0` downwards, return `2 ^ (k0 + 1)` for the largest `k0` with
`2 ^ k0 < n`, and 1 when there is none (that is, when `n <= 1`). -/
def npt_go (n : Nat) : Nat → Nat
  | 0 => 1
  | k + 1 => if 2 ^ k < n then 2 ^ (k + 1) else npt_go n k

/-- `u16::next_power_of_two`: the smallest power of two that is `>= n`
(with `next_power_of_two 0 = 1`).  Faithful for every `n` that fits in
`u16` without overflowing the result, which covers every use in the
driver (`max_packet_size <= 256` for allocated endpoints). -/
def next_power_of_two (n : Nat) : Nat :=
  npt_go n 16

/-- `epsize_bits_from_max_packet_size`: UECFG1X.EPSIZE encoding.  The
source panics (an `unreachable` arm) when the rounded size is not one
of the listed powers of two; the panic is modelled as `none`. -/
def epsize_bits_from_max_packet_size (max_packet_size : Nat) : Option Nat :=
  match max 8 (next_power_of_two max_packet_size) with
  | 8 => some 0b000
  | 16 => some 0b001
  | 32 => some 0b010
  | 64 => some 0b011
  | 128 => some 0b100
  | 256 => some 0b101
  | 512 => some 0b110
  | _ => none

/-- The scan performed by `alloc_ep` when no address is specified:
`self.endpoints.iter().enumerate().skip(1).find_map(...)` — find the
first free slot, at index `n` or later, whose fixed capacity admits
`max_packet_size`. -/
def find_free_from (n : Nat) (max_packet_size : Nat) :
    List (Option EndpointTableEntry) → Option Nat
  | [] => none
  | ep :: rest =>
    if ep.isNone ∧ max_packet_size ≤ ENDPOINT_MAX_BUFSIZE n then some n
    else find_free_from (n + 1) max_packet_size rest

/-- The full unspecified-address scan of `alloc_ep`: slots 1 and up
(slot 0, the control endpoint, is skipped). -/
def find_free_index (eps : EndpointTable) (max_packet_size : Nat) : Option Nat :=
  find_free_from 1 max_packet_size (eps.drop 1)

/-- The specified-address path of `alloc_ep` (everything after the
`let Some(addr) = ep_addr` destructuring in the source).  The result is
`none` when the source panics (the `unreachable` arm for a direction
mismatch), and otherwise the pair of the returned value and the new
endpoint table. -/
def alloc_ep_specified (eps : EndpointTable) (ep_dir : UsbDirection)
    (addr : EndpointAddress) (ep_type : EndpointType)
    (max_packet_size : Nat) :
    Option (Except UsbError EndpointAddress × EndpointTable) :=
  if addr.direction ≠ ep_dir then
    none
  else if eps.length ≤ addr.index then
    some (.error .InvalidEndpoint, eps)
  else if addr.index = 0 ∧ addr.direction = .In then
    some (.ok addr, eps)
  else if (eps.getD addr.index none).isSome ∨
      ENDPOINT_MAX_BUFSIZE addr.index < max_packet_size then
    some (.error .InvalidEndpoint, eps)
  else
    some (.ok addr,
      eps.set addr.index (some ⟨ep_type, ep_dir, max_packet_size⟩))

/-- `UsbBus::alloc_ep`.  When `ep_addr` is `none` the source picks the
first fitting free index and recurses with that address specified; the
recursive call immediately lands in the specified-address path, which
is `alloc_ep_specified` here.  `interval` is accepted and ignored, as
in the source. -/
def alloc_ep (eps : EndpointTable) (ep_dir : UsbDirection)
    (ep_addr : Option EndpointAddress) (ep_type : EndpointType)
    (max_packet_size : Nat) (_interval : Nat) :
    Option (Except UsbError EndpointAddress × EndpointTable) :=
  match ep_addr with
  | none =>
    match find_free_index eps max_packet_size with
    | none => some (.error .EndpointMemoryOverflow, eps)
    | some index =>
      alloc_ep_specified eps ep_dir ⟨index, ep_dir⟩ ep_type max_packet_size
  | some addr =>
    alloc_ep_specified eps ep_dir addr ep_type max_packet_size

/-- `active_endpoints`:
`self.endpoints.iter().enumerate().filter(is_some).map(unwrap)`,
written with an explicit running index `n` (the top-level call uses
`n = 0`) so that facts about the produced indices follow by structural
induction. -/
def active_from (n : Nat) :
    List (Option EndpointTableEntry) → List (Nat × EndpointTableEntry)
  | [] => []
  | none :: rest => active_from (n + 1) rest
  | some e :: rest => (n, e) :: active_from (n + 1) rest

/-- `active_endpoints`: the allocated `(index, entry)` pairs in
ascending index order. -/
def active_endpoints (eps : EndpointTable) : List (Nat × EndpointTableEntry) :=
  active_from 0 eps

/-- `set_current_endpoint`: write the endpoint number to UENUM.  Fails
with `InvalidEndpoint` when the index is out of range and with
`InvalidState` when the clock is frozen (FRZCLK set).  The UENUM
read-back is modelled as faithful (it equals the value written, masked
to three bits, which for an in-range index is the value itself), so the
read-back assertion of the source cannot fire and its `InvalidState`
path for a mismatching read-back is not taken. -/
def set_current_endpoint (frzclk : Bool) (index : Nat) : Except UsbError Unit :=
  if MAX_ENDPOINTS ≤ index then .error .InvalidEndpoint
  else if frzclk then .error .InvalidState
  else .ok ()

/-- One recorded hardware effect of `enable`/`configure_endpoint`.
Each constructor names the register and the fields the source writes in
that single access. -/
inductive RegWrite
  | pllcsr_pindiv (highspeed : Bool)
  | pllfrq_reset
  | pllcsr_plle_set
  | spin_until_plock
  | uhwcon_uvrege_set
  | usbcon_usbe_otgpade_set
  | delay_1ms
  | usbcon_frzclk_clear_vbuste_set
  | uenum_select (index : Nat)
  | ueconx_epen_set
  | uecfg1x_alloc_clear
  | uecfg0x_write (epdir : Bool) (eptype : Nat)
  | uecfg1x_write (epbk : Nat) (epsize : Nat)
  | uecfg1x_alloc_set
  | ueienx_rxoute_rxstpe_set
  | udcon_detach_clear
  | udien_eorste_sofe_set
deriving DecidableEq, Repr

/-- The register writes of one `configure_endpoint` run, given the
already-computed EPSIZE bits. -/
def configure_events (index : Nat) (endpoint : EndpointTableEntry)
    (epsize : Nat) : List RegWrite :=
  [.uenum_select index,
   .ueconx_epen_set,
   .uecfg1x_alloc_clear,
   .uecfg0x_write (epdir_bit_from_direction endpoint.ep_dir)
     (eptype_bits_from_ep_type endpoint.ep_type),
   .uecfg1x_write 0 epsize,
   .uecfg1x_alloc_set,
   .ueienx_rxoute_rxstpe_set]

/-- `configure_endpoint` as a register-write trace for an allocated
slot.  `none` models the `unreachable` panic inside
`epsize_bits_from_max_packet_size` (in the source that panic would fire
while writing UECFG1X, after the earlier writes of the sequence; no
theorem depends on the truncated prefix).  At both call sites
(`enable`, `reset`) the clock has just been unfrozen and the index is
in range, so the `set_current_endpoint` error paths and the
missing-entry `InvalidState` path of the source cannot be taken, and
the CFGOK assertion is modelled as passing (cooperative hardware). -/
def configure_endpoint (index : Nat) (endpoint : EndpointTableEntry) :
    Option (List RegWrite) :=
  (epsize_bits_from_max_packet_size endpoint.max_packet_size).map
    (configure_events index endpoint)

/-- The PLL bring-up writes inside `enable`: program PINDIV for the
clock marker, reset PLLFRQ to its power-on value, set PLLE, then spin
until PLOCK reads set. -/
def pll_bringup (highspeed : Bool) : List RegWrite :=
  [.pllcsr_pindiv highspeed, .pllfrq_reset, .pllcsr_plle_set,
   .spin_until_plock]

/-- The fixed writes of `enable` between the PLL bring-up and the
per-endpoint programming: UHWCON.UVREGE=1; USBCON.USBE=1 with
OTGPADE=1; the 1 ms delay; USBCON.FRZCLK=0 with VBUSTE=1. -/
def enable_mid : List RegWrite :=
  [.uhwcon_uvrege_set, .usbcon_usbe_otgpade_set, .delay_1ms,
   .usbcon_frzclk_clear_vbuste_set]

/-- The fixed writes at the end of `enable`: UDCON.DETACH=0, then
UDIEN.EORSTE=1 with SOFE=1. -/
def enable_tail : List RegWrite :=
  [.udcon_detach_clear, .udien_eorste_sofe_set]

/-- Collect the results of an option-valued function over a list,
failing as soon as the function fails (the effect of `.unwrap()` in a
loop: the first panic propagates). -/
def traverse_option {α β : Type} (f : α → Option β) :
    List α → Option (List β)
  | [] => some []
  | a :: l =>
    match f a, traverse_option f l with
    | some b, some bs => some (b :: bs)
    | _, _ => none

/-- `UsbBus::enable` as a register-write trace.  `highspeed` is the
`ClockUSB` marker (true for 16 MHz, false for 8 MHz); the unwrap on
`configure_endpoint` propagates its panic, so the result is `none` iff
some allocated entry makes `epsize_bits_from_max_packet_size` panic. -/
def enable (highspeed : Bool) (eps : EndpointTable) :
    Option (List RegWrite) :=
  (traverse_option (fun p => configure_endpoint p.1 p.2)
      (active_endpoints eps)).map
    (fun cfgs =>
      pll_bringup highspeed ++ enable_mid ++ cfgs.flatten ++ enable_tail)

/-- The `ClearInterrupts` impl for UDINT: the write is seeded with the
fixed pre-mask 0x7D (bits 1 and 7 are reserved and must stay 0) and the
caller clears a further selection of bits.  Every call site only clears
bits, so the helper is modelled as receiving the set of bits to clear
and producing the written byte. -/
def udint_clear_interrupts (clears : Nat) : Nat :=
  0x7d &&& (0xff ^^^ (clears &&& 0xff))

/-- The `ClearInterrupts` impl for UEINTX: pre-mask 0xDF (bit 5, RWAL,
is read-only). -/
def ueintx_clear_interrupts (clears : Nat) : Nat :=
  0xdf &&& (0xff ^^^ (clears &&& 0xff))

/-- The `ClearInterrupts` impl for USBINT: pre-mask 0x01 (bits 7:1 are
reserved). -/
def usbint_clear_interrupts (clears : Nat) : Nat :=
  0x01 &&& (0xff ^^^ (clears &&& 0xff))

/-- The hardware state `write` observes on the endpoint it selects.
`txini` is the UEINTX.TXINI read; `rwal_room` abstracts the IN-bank
FIFO room: RWAL reads set exactly while fewer than `rwal_room` bytes
have been pushed during the call (the bank only fills, so RWAL cannot
come back once it drops). -/
structure WriteHw where
  frzclk : Bool
  txini : Bool
  rwal_room : Nat

/-- The observable outcome of one `write` call: the returned value, the
bytes pushed to UEDATX in order, the bytes written to UEINTX through
`clear_interrupts` in order, and the new `pending_ins` bitmask. -/
structure WriteOut where
  result : Except UsbError Nat
  pushed : List Nat
  ueintx_writes : List Nat
  pending : Nat
deriving DecidableEq, Repr

/-- The per-byte push loop of the non-control `write` path: before each
push RWAL is checked; with `room` bytes of space left the next byte is
pushed, with none left the loop aborts.  Returns the pushed bytes and
whether the loop aborted (the `BufferOverflow` case). -/
def uedatx_push_loop : Nat → List Nat → List Nat × Bool
  | _, [] => ([], false)
  | 0, _ :: _ => ([], true)
  | room + 1, b :: rest =>
    let (pushed, aborted) := uedatx_push_loop room rest
    (b :: pushed, aborted)

/-- `UsbBus::write`.  `none` models a panic of one of the two
direction assertions.  Mirrors the source order: endpoint-table lookup,
direction assertions, endpoint selection, then the control /
non-control split. -/
def write (eps : EndpointTable) (pending : Nat) (hw : WriteHw)
    (ep_addr : EndpointAddress) (buf : List Nat) : Option WriteOut :=
  match eps.getD ep_addr.index none with
  | none => some ⟨.error .InvalidEndpoint, [], [], pending⟩
  | some endpoint =>
    if ep_addr.direction ≠ .In then none
    else if ep_addr.index ≠ 0 ∧ endpoint.ep_dir ≠ .In then none
    else
      match set_current_endpoint hw.frzclk ep_addr.index with
      | .error e => some ⟨.error e, [], [], pending⟩
      | .ok _ =>
        if endpoint.ep_type = .control then
          if hw.txini = false then
            some ⟨.error .WouldBlock, [], [], pending⟩
          else if endpoint.max_packet_size < buf.length then
            some ⟨.error .BufferOverflow, [], [], pending⟩
          else
            some ⟨.ok buf.length, buf,
              [ueintx_clear_interrupts (1 <<< 0)],
              pending ||| (1 <<< ep_addr.index)⟩
        else
          if hw.txini = false then
            some ⟨.error .WouldBlock, [], [], pending⟩
          else
            let first_clear := ueintx_clear_interrupts ((1 <<< 0) ||| (1 <<< 2))
            let pa := uedatx_push_loop hw.rwal_room buf
            if pa.2 then
              some ⟨.error .BufferOverflow, pa.1, [first_clear], pending⟩
            else
              some ⟨.ok buf.length, pa.1,
                [first_clear,
                 ueintx_clear_interrupts ((1 <<< 7) ||| (1 <<< 2))],
                pending ||| (1 <<< ep_addr.index)⟩

/-- The hardware state `read` observes on the endpoint it selects:
the UEINTX.RXOUTI/RXSTPI reads, the UEBCHX/UEBCLX register bytes, the
successive UEDATX reads (`fifo k` is the value of the k-th read of the
call), and for non-control endpoints `rwal_data`, the number of bytes
in the OUT bank: RWAL reads set exactly while fewer than `rwal_data`
bytes have been pulled. -/
structure ReadHw where
  frzclk : Bool
  rxouti : Bool
  rxstpi : Bool
  uebchx : Nat
  uebclx : Nat
  fifo : Nat → Nat
  rwal_data : Nat

/-- The observable outcome of one `read` call: the returned value, the
contents of the caller buffer afterwards, and the bytes written to
UEINTX through `clear_interrupts` in order. -/
structure ReadOut where
  result : Except UsbError Nat
  buffer : List Nat
  ueintx_writes : List Nat
deriving DecidableEq, Repr

/-- `endpoint_byte_count`: the eleven-bit BYCT value, split across
UEBCHX (read first, shifted up by 8) and UEBCLX. -/
def endpoint_byte_count (uebchx uebclx : Nat) : Nat :=
  (uebchx <<< 8) ||| uebclx

/-- The per-slot pull loop of the non-control `read` path: slots of the
caller buffer are filled from UEDATX while RWAL reads set; `k` counts
the bytes pulled so far.  Returns the resulting buffer contents and the
final count. -/
def uedatx_pull_loop (fifo : Nat → Nat) (data : Nat) :
    Nat → List Nat → List Nat × Nat
  | k, [] => ([], k)
  | k, slot :: rest =>
    if data ≤ k then (slot :: rest, k)
    else
      let (restBuf, k') := uedatx_pull_loop fifo data (k + 1) rest
      (fifo k :: restBuf, k')

/-- `UsbBus::read`.  Mirrors the source order: endpoint selection,
endpoint-table lookup, then the control / non-control split. -/
def read (eps : EndpointTable) (hw : ReadHw) (ep_addr : EndpointAddress)
    (buf : List Nat) : ReadOut :=
  match set_current_endpoint hw.frzclk ep_addr.index with
  | .error e => ⟨.error e, buf, []⟩
  | .ok _ =>
    match eps.getD ep_addr.index none with
    | none => ⟨.error .InvalidEndpoint, buf, []⟩
    | some endpoint =>
      if endpoint.ep_type = .control then
        if hw.rxouti = false ∧ hw.rxstpi = false then
          ⟨.error .WouldBlock, buf, []⟩
        else
          let bytes_to_read := endpoint_byte_count hw.uebchx hw.uebclx
          if buf.length < bytes_to_read then
            ⟨.error .BufferOverflow, buf, []⟩
          else
            ⟨.ok bytes_to_read,
             (List.range bytes_to_read).map hw.fifo ++ buf.drop bytes_to_read,
             [ueintx_clear_interrupts ((1 <<< 2) ||| (1 <<< 3))]⟩
      else
        if hw.rxouti = false then ⟨.error .WouldBlock, buf, []⟩
        else
          let rxouti_clear := ueintx_clear_interrupts (1 <<< 2)
          let (buffer, bytes_read) := uedatx_pull_loop hw.fifo hw.rwal_data 0 buf
          if bytes_read < hw.rwal_data then
            ⟨.error .BufferOverflow, buffer, [rxouti_clear]⟩
          else
            ⟨.ok bytes_read, buffer,
             [rxouti_clear, ueintx_clear_interrupts (1 <<< 7)]⟩

/-- `usb_device::bus::PollResult`. -/
inductive PollResult
  | none
  | reset
  | suspend
  | resume
  | data (ep_out : Nat) (ep_in_complete : Nat) (ep_setup : Nat)
deriving DecidableEq, Repr

/-- The ep_in_complete mask of a `PollResult` (zero unless the result
carries endpoint data). -/
def ep_in_complete_of : PollResult → Nat
  | .data _ c _ => c
  | _ => 0

/-- The hardware state `poll` observes.  The per-endpoint UEINTX flags
are indexed by endpoint number; the device-level flags are single
bits. -/
structure PollHw where
  vbusti : Bool
  vbus : Bool
  suspi : Bool
  wakeupi : Bool
  eorsti : Bool
  sofi : Bool
  suspe : Bool
  wakeupe : Bool
  frzclk : Bool
  rxouti : Nat → Bool
  rxstpi : Nat → Bool
  txini : Nat → Bool

/-- The accumulators of the per-endpoint scan in `poll`: the three
event masks under construction and the `pending_ins` cell. -/
structure ScanOut where
  ep_out : Nat
  ep_setup : Nat
  ep_in_complete : Nat
  pending : Nat
deriving DecidableEq, Repr

/-- One iteration of the per-endpoint loop of `poll`: OR the endpoint
bit into `ep_out` / `ep_setup` when RXOUTI / RXSTPI read set, and, when
the `pending_ins` bit is set and TXINI reads set, OR the bit into
`ep_in_complete` and clear it in `pending_ins` (an 8-bit
`& !(1 << index)`).  The source updates `ep_in_complete` and
`pending_ins` inside one `if`; here the same condition guards the two
fields. -/
def poll_scan_step (hw : PollHw) (index : Nat) (acc : ScanOut) :
    ScanOut where
  ep_out :=
    if hw.rxouti index then acc.ep_out ||| (1 <<< index) else acc.ep_out
  ep_setup :=
    if hw.rxstpi index then acc.ep_setup ||| (1 <<< index) else acc.ep_setup
  ep_in_complete :=
    if acc.pending &&& (1 <<< index) ≠ 0 ∧ hw.txini index then
      acc.ep_in_complete ||| (1 <<< index)
    else acc.ep_in_complete
  pending :=
    if acc.pending &&& (1 <<< index) ≠ 0 ∧ hw.txini index then
      acc.pending &&& (0xff ^^^ (1 <<< index))
    else acc.pending

/-- The per-endpoint loop of `poll` over `active_endpoints`: each
iteration re-selects the endpoint (a failure breaks out of the loop
keeping the masks built so far) and then performs `poll_scan_step`. -/
def poll_scan (hw : PollHw) :
    List (Nat × EndpointTableEntry) → ScanOut → ScanOut
  | [], acc => acc
  | (index, _e) :: rest, acc =>
    match set_current_endpoint hw.frzclk index with
    | .error _ => acc
    | .ok _ => poll_scan hw rest (poll_scan_step hw index acc)

/-- `UsbBus::poll`.  Returns the coarse event and the new
`pending_ins` bitmask.  The VBUSTI/SOFI acknowledge writes are not
recorded (no claim concerns them); the event priority and the
endpoint scan follow the source line by line. -/
def poll (eps : EndpointTable) (pending : Nat) (hw : PollHw) :
    PollResult × Nat :=
  if hw.vbusti then
    (if hw.vbus then .resume else .suspend, pending)
  else if hw.suspi && hw.suspe then (.suspend, pending)
  else if hw.wakeupi && hw.wakeupe then (.resume, pending)
  else if hw.eorsti then (.reset, pending)
  else if hw.frzclk = false then
    let s := poll_scan hw (active_endpoints eps) ⟨0, 0, 0, pending⟩
    if s.ep_out ||| s.ep_setup ||| s.ep_in_complete ≠ 0 then
      (.data s.ep_out s.ep_in_complete s.ep_setup, s.pending)
    else (.none, s.pending)
  else (.none, pending)

/-- The table invariant maintained by `alloc_ep`: every allocated
entry respects the fixed capacity of its slot. -/
def tableOK (eps : EndpointTable) : Prop :=
  ∀ i e, eps.getD i none = some e →
    e.max_packet_size ≤ ENDPOINT_MAX_BUFSIZE i

/-- Executable form of `tableOK` over the active entries. -/
def tableOKb (eps : EndpointTable) : Bool :=
  (active_endpoints eps).all
    (fun p => p.2.max_packet_size ≤ ENDPOINT_MAX_BUFSIZE p.1)

/-- The endpoint tables reachable from the fresh driver state
(`endpoints: Default::default()`, all slots free) by `alloc_ep` calls
that return (including the ones returning an error). -/
inductive Reachable : EndpointTable → Prop
  | init : Reachable (List.replicate 7 none)
  | step {eps eps' : EndpointTable} {ep_dir ep_addr ep_type mps iv r} :
      Reachable eps →
      alloc_ep eps ep_dir ep_addr ep_type mps iv = some (r, eps') →
      Reachable eps'

/-- The all-free endpoint table of a fresh driver. -/
def eps_empty : EndpointTable := List.replicate 7 none

/-- A table with only EP0 allocated as a Control endpoint of
max packet size 8 (the table after the usual EP0 allocation). -/
def eps_ep0 : EndpointTable :=
  [some ⟨.control, .Out, 8⟩, none, none, none, none, none, none]

/-- A table with EP0 (Control, 8) and EP1 (Bulk In, 64) allocated. -/
def eps_ep0_ep1 : EndpointTable :=
  [some ⟨.control, .Out, 8⟩, some ⟨.bulk, .In, 64⟩,
   none, none, none, none, none]

/-- A table with EP3 (Bulk Out, 64) allocated. -/
def eps_ep3 : EndpointTable :=
  [none, none, none, some ⟨.bulk, .Out, 64⟩, none, none, none]

/-- A poll hardware state with TXINI reading set on every endpoint and
no device-level event pending (the clock running). -/
def phw_txini : PollHw :=
  ⟨false, false, false, false, false, false, false, false, false,
   (fun _ => false), (fun _ => false), (fun _ => true)⟩

/-- The register-write trace `enable` produces on `eps_ep0` with a
16 MHz clock, written out in full. -/
def enable_trace_ep0 : List RegWrite :=
  [.pllcsr_pindiv true, .pllfrq_reset, .pllcsr_plle_set,
   .spin_until_plock, .uhwcon_uvrege_set, .usbcon_usbe_otgpade_set,
   .delay_1ms, .usbcon_frzclk_clear_vbuste_set, .uenum_select 0,
   .ueconx_epen_set, .uecfg1x_alloc_clear, .uecfg0x_write false 0,
   .uecfg1x_write 0 0, .uecfg1x_alloc_set, .ueienx_rxoute_rxstpe_set,
   .udcon_detach_clear, .udien_eorste_sofe_set]

/-!  Theorems.  General facts first, then one theorem per claim with
its witness or counterexample.  -/

/-- An in-range `getD` hit: a slot that holds an entry lies below the
length of the table. -/
theorem getD_some_lt_length {α : Type} {l : List (Option α)} {i : Nat}
    {e : α} (h : l.getD i none = some e) : i < l.length := by
  by_contra hlt
  push_neg at hlt
  rw [List.getD_eq_default _ _ hlt] at h
  cases h

/-- Claim C1, counterexample.  On the all-free table, requesting
address (2, In) for a Bulk endpoint of max packet size 128 (slot 2 has
capacity 64) fails with `InvalidEndpoint`, even though the claimed
fallback to unspecified-address allocation would succeed and return
(1, In): `alloc_ep` does not fall back. -/
theorem c1_alloc_ep_no_fallback_counterexample :
    alloc_ep eps_empty .In (some ⟨2, .In⟩) .bulk 128 0
      = some (.error .InvalidEndpoint, eps_empty) ∧
    alloc_ep eps_empty .In none .bulk 128 0
      = some (.ok ⟨1, .In⟩,
          [none, some ⟨.bulk, .In, 128⟩, none, none, none, none, none]) := by
  constructor
  · decide
  · decide

/-- Claim C1, amended: for a specified endpoint address with index in
1..6 and matching direction, if the slot at that index is already
allocated or its fixed capacity is smaller than `max_packet_size`,
`alloc_ep` fails with `InvalidEndpoint` and leaves the table unchanged
(it does not fall back to unspecified-address allocation). -/
theorem c1_alloc_ep_specified_busy_fails (eps : EndpointTable)
    (d : UsbDirection) (t : EndpointType) (mps iv index : Nat)
    (h7 : eps.length = 7) (h1 : 1 ≤ index) (h6 : index ≤ 6)
    (hbusy : (eps.getD index none).isSome = true ∨
      ENDPOINT_MAX_BUFSIZE index < mps) :
    alloc_ep eps d (some ⟨index, d⟩) t mps iv
      = some (.error .InvalidEndpoint, eps) := by
  have hlen : ¬ (eps.length ≤ index) := by omega
  have h0 : ¬ (index = 0) := by omega
  simp only [alloc_ep, alloc_ep_specified]
  rw [if_neg (by simp), if_neg hlen, if_neg (by simp [h0]), if_pos hbusy]

/-- Claim C1, witness for the amended theorem: slot 1 is already
allocated in `eps_ep0_ep1`, so requesting (1, In) fails with
`InvalidEndpoint` and the table is unchanged. -/
theorem c1_alloc_ep_specified_busy_fails_witness :
    alloc_ep eps_ep0_ep1 .In (some ⟨1, .In⟩) .bulk 64 0
      = some (.error .InvalidEndpoint, eps_ep0_ep1) :=
  c1_alloc_ep_specified_busy_fails eps_ep0_ep1 .In .bulk 64 0 1
    (by decide) (by decide) (by decide) (Or.inl (by decide))

/-- Claim C7: for every length-7 endpoint table (slot 0 allocated or
not), `alloc_ep` with specified address (0, In) and direction In
returns success with address (0, In) and leaves the table unchanged. -/
theorem c7_alloc_ep_ep0_in_noop (eps : EndpointTable) (t : EndpointType)
    (mps iv : Nat) (h7 : eps.length = 7) :
    alloc_ep eps .In (some ⟨0, .In⟩) t mps iv
      = some (.ok ⟨0, .In⟩, eps) := by
  have hlen : ¬ (eps.length ≤ (0 : Nat)) := by omega
  simp [alloc_ep, alloc_ep_specified, hlen]

/-- Claim C7, witness: on the all-free table (slot 0 unallocated),
the EP0-In request succeeds with no state change. -/
theorem c7_alloc_ep_ep0_in_noop_witness :
    alloc_ep eps_empty .In (some ⟨0, .In⟩) .control 8 0
      = some (.ok ⟨0, .In⟩, eps_empty) :=
  c7_alloc_ep_ep0_in_noop eps_empty .control 8 0 (by decide)

/-- An AND against a fixed mask can never produce a bit the mask does
not have: if `a &&& c = 0` then `(a &&& b) &&& c = 0` for every `b`. -/
theorem land_land_eq_zero {a c : Nat} (h : a &&& c = 0) (b : Nat) :
    (a &&& b) &&& c = 0 := by
  apply Nat.eq_of_testBit_eq
  intro i
  have h2 : (a &&& c).testBit i = false := by
    rw [h]
    exact Nat.zero_testBit i
  rw [Nat.testBit_and] at h2
  rw [Nat.testBit_and, Nat.testBit_and, Nat.zero_testBit]
  cases h3 : a.testBit i <;> cases h4 : c.testBit i <;> simp_all

/-- Claim C8: for every caller-supplied selection of bits to clear,
the interrupt-flag-clear write to UDINT never sets bits 1 or 7 (mask
0x82), the write to UEINTX never sets bit 5 (mask 0x20), and the write
to USBINT never sets bits 7:1 (mask 0xFE): the helpers seed the write
with the fixed pre-masks 0x7D, 0xDF and 0x01. -/
theorem c8_clear_interrupts_reserved_bits (clears : Nat) :
    udint_clear_interrupts clears &&& 0x82 = 0 ∧
    ueintx_clear_interrupts clears &&& 0x20 = 0 ∧
    usbint_clear_interrupts clears &&& 0xfe = 0 :=
  ⟨land_land_eq_zero (by decide) _,
   land_land_eq_zero (by decide) _,
   land_land_eq_zero (by decide) _⟩

/-- Claim C3: whenever EORSTI is set while VBUSTI is clear, no
SUSPI-with-SUSPE is pending and no WAKEUPI-with-WAKEUPE is pending,
`poll` returns `Reset` — regardless of the per-endpoint
RXOUTI/RXSTPI/TXINI flags, because the EORSTI check precedes the
per-endpoint scan. -/
theorem c3_poll_reset_priority (eps : EndpointTable) (pending : Nat)
    (phw : PollHw) (hv : phw.vbusti = false)
    (hs : (phw.suspi && phw.suspe) = false)
    (hk : (phw.wakeupi && phw.wakeupe) = false)
    (he : phw.eorsti = true) :
    (poll eps pending phw).1 = .reset := by
  simp [poll, hv, hs, hk, he]

/-- Claim C3, witness (scenario E of the spec): EORSTI set together
with RXOUTI set on endpoint 3 still polls as `Reset`. -/
theorem c3_poll_reset_priority_witness :
    (poll eps_ep3 0
      ⟨false, false, false, false, true, false, false, false, false,
       (fun i => i == 3), (fun _ => false), (fun _ => false)⟩).1
      = .reset :=
  c3_poll_reset_priority eps_ep3 0 _ rfl rfl rfl rfl

/-- Claim C5: a `write` on an allocated Control endpoint with TXINI set
whose buffer is longer than the recorded `max_packet_size` fails with
`BufferOverflow`, pushes no bytes to UEDATX, performs no UEINTX write
(so TXINI is untouched) and leaves `pending_ins` unchanged. -/
theorem c5_write_control_overflow (eps : EndpointTable) (pending : Nat)
    (whw : WriteHw) (addr : EndpointAddress) (buf : List Nat)
    (e : EndpointTableEntry) (h7 : eps.length = 7)
    (he : eps.getD addr.index none = some e)
    (hctl : e.ep_type = .control)
    (hdir : addr.direction = .In)
    (hed : addr.index = 0 ∨ e.ep_dir = .In)
    (hfrz : whw.frzclk = false)
    (htx : whw.txini = true)
    (hlen : e.max_packet_size < buf.length) :
    write eps pending whw addr buf
      = some ⟨.error .BufferOverflow, [], [], pending⟩ := by
  have hidx : ¬ (MAX_ENDPOINTS ≤ addr.index) := by
    have := getD_some_lt_length he
    simp only [MAX_ENDPOINTS]
    omega
  have hnot : ¬ (addr.index ≠ 0 ∧ e.ep_dir ≠ UsbDirection.In) := by
    rcases hed with h | h <;> simp [h]
  rw [List.getD_eq_getElem?_getD] at he
  simp [write, he, set_current_endpoint, hdir, hnot, hidx, hfrz, hctl,
    htx, hlen]

/-- Claim C5, witness (scenario C of the spec): EP0 allocated with max
packet size 8, TXINI set, a 9-byte write fails with `BufferOverflow`,
pushes nothing and changes nothing. -/
theorem c5_write_control_overflow_witness :
    write eps_ep0 0 ⟨false, true, 0⟩ ⟨0, .In⟩ (List.replicate 9 0)
      = some ⟨.error .BufferOverflow, [], [], 0⟩ :=
  c5_write_control_overflow eps_ep0 0 ⟨false, true, 0⟩ ⟨0, .In⟩
    (List.replicate 9 0) ⟨.control, .Out, 8⟩ (by decide) (by decide)
    (by decide) (by decide) (Or.inl (by decide)) (by decide) (by decide)
    (by decide)

/-- When the FIFO room runs out before the buffer does, the push loop
of the non-control `write` path pushes exactly the first `room` bytes
and aborts. -/
theorem uedatx_push_loop_overflow (room : Nat) (buf : List Nat)
    (h : room < buf.length) :
    uedatx_push_loop room buf = (buf.take room, true) := by
  induction buf generalizing room with
  | nil => simp at h
  | cons b rest ih =>
    cases room with
    | zero => rfl
    | succ r => simp [uedatx_push_loop, ih r (by simpa using h)]

/-- When the buffer fits in the FIFO room, the push loop pushes the
whole buffer and does not abort. -/
theorem uedatx_push_loop_fits (room : Nat) (buf : List Nat)
    (h : buf.length ≤ room) :
    uedatx_push_loop room buf = (buf, false) := by
  induction buf generalizing room with
  | nil => cases room <;> rfl
  | cons b rest ih =>
    cases room with
    | zero => simp at h
    | succ r => simp [uedatx_push_loop, ih r (by simpa using h)]

/-- Claim C10: when a non-control `write` fails with `BufferOverflow`
because RWAL dropped mid-transfer (FIFO room smaller than the buffer),
the failure is not atomic: exactly one UEINTX
interrupt-clear write has been issued — the one that already cleared
TXINI (and RXOUTI), written before the data loop, with no
FIFOCON-clearing commit write after it — the first `rwal_room` bytes
have already been pushed to UEDATX, and the `pending_ins` bit of the
endpoint is not set (the bitmask is returned unchanged). -/
theorem c10_write_noncontrol_overflow_partial (eps : EndpointTable)
    (pending : Nat) (whw : WriteHw) (addr : EndpointAddress)
    (buf : List Nat) (e : EndpointTableEntry) (h7 : eps.length = 7)
    (he : eps.getD addr.index none = some e)
    (hnc : e.ep_type ≠ .control)
    (hdir : addr.direction = .In)
    (hed : e.ep_dir = .In)
    (hfrz : whw.frzclk = false)
    (htx : whw.txini = true)
    (hroom : whw.rwal_room < buf.length) :
    write eps pending whw addr buf
      = some ⟨.error .BufferOverflow, buf.take whw.rwal_room,
          [ueintx_clear_interrupts ((1 <<< 0) ||| (1 <<< 2))], pending⟩ ∧
    (ueintx_clear_interrupts ((1 <<< 0) ||| (1 <<< 2))).testBit 0
      = false := by
  have hidx : ¬ (MAX_ENDPOINTS ≤ addr.index) := by
    have := getD_some_lt_length he
    simp only [MAX_ENDPOINTS]
    omega
  have hnot : ¬ (addr.index ≠ 0 ∧ e.ep_dir ≠ UsbDirection.In) := by
    simp [hed]
  rw [List.getD_eq_getElem?_getD] at he
  refine ⟨?_, by decide⟩
  simp [write, he, set_current_endpoint, hdir, hnot, hidx, hfrz, hnc,
    htx, uedatx_push_loop_overflow whw.rwal_room buf hroom]

/-- Claim C10, witness: a 3-byte write into 2 bytes of FIFO room on
Bulk endpoint 1 fails with `BufferOverflow` after pushing the first 2
bytes and issuing only the TXINI/RXOUTI-clearing UEINTX write
(value 0xDA, whose bit 0 — TXINI — is written as 0). -/
theorem c10_write_noncontrol_overflow_partial_witness :
    write eps_ep0_ep1 0 ⟨false, true, 2⟩ ⟨1, .In⟩ [1, 2, 3]
      = some ⟨.error .BufferOverflow, [1, 2],
          [ueintx_clear_interrupts ((1 <<< 0) ||| (1 <<< 2))], 0⟩ ∧
    (ueintx_clear_interrupts ((1 <<< 0) ||| (1 <<< 2))).testBit 0
      = false :=
  c10_write_noncontrol_overflow_partial eps_ep0_ep1 0 ⟨false, true, 2⟩
    ⟨1, .In⟩ [1, 2, 3] ⟨.bulk, .In, 64⟩ (by decide) (by decide)
    (by decide) (by decide) (by decide) (by decide) (by decide)
    (by decide)

/-- Claim C4: on an allocated Control endpoint, `read` fails with
`WouldBlock` when both RXOUTI and RXSTPI are clear; otherwise it
computes the byte count as (UEBCHX high 3 bits) << 8 | (UEBCLX low 8
bits) — for the physical register values (UEBCHX below 8, UEBCLX below
256) this is the value the code computes — fails with `BufferOverflow`
when the count exceeds the buffer length, and otherwise copies exactly
`count` bytes from UEDATX into the front of the buffer, issues the
single UEINTX write clearing RXOUTI and RXSTPI together, and returns
the count. -/
theorem c4_read_control_spec (eps : EndpointTable) (rhw : ReadHw)
    (addr : EndpointAddress) (buf : List Nat) (e : EndpointTableEntry)
    (h7 : eps.length = 7)
    (he : eps.getD addr.index none = some e)
    (hctl : e.ep_type = .control)
    (hfrz : rhw.frzclk = false)
    (hh : rhw.uebchx < 8) (hl : rhw.uebclx < 256) :
    endpoint_byte_count rhw.uebchx rhw.uebclx
      = ((rhw.uebchx % 8) <<< 8) ||| (rhw.uebclx % 256) ∧
    (rhw.rxouti = false ∧ rhw.rxstpi = false →
      read eps rhw addr buf = ⟨.error .WouldBlock, buf, []⟩) ∧
    (¬ (rhw.rxouti = false ∧ rhw.rxstpi = false) →
      (buf.length < endpoint_byte_count rhw.uebchx rhw.uebclx →
        read eps rhw addr buf = ⟨.error .BufferOverflow, buf, []⟩) ∧
      (endpoint_byte_count rhw.uebchx rhw.uebclx ≤ buf.length →
        read eps rhw addr buf
          = ⟨.ok (endpoint_byte_count rhw.uebchx rhw.uebclx),
             (List.range (endpoint_byte_count rhw.uebchx rhw.uebclx)).map
                 rhw.fifo
               ++ buf.drop (endpoint_byte_count rhw.uebchx rhw.uebclx),
             [ueintx_clear_interrupts ((1 <<< 2) ||| (1 <<< 3))]⟩)) := by
  have hidx : ¬ (MAX_ENDPOINTS ≤ addr.index) := by
    have := getD_some_lt_length he
    simp only [MAX_ENDPOINTS]
    omega
  rw [List.getD_eq_getElem?_getD] at he
  refine ⟨by rw [Nat.mod_eq_of_lt hh, Nat.mod_eq_of_lt hl]; rfl, ?_, ?_⟩
  · intro hblock
    simp [read, he, set_current_endpoint, hidx, hfrz, hctl, hblock]
  · intro hready
    constructor
    · intro hover
      simp [read, he, set_current_endpoint, hidx, hfrz, hctl, hready,
        hover]
    · intro hfits
      have hnlt : ¬ (buf.length < endpoint_byte_count rhw.uebchx rhw.uebclx) := by
        omega
      simp [read, he, set_current_endpoint, hidx, hfrz, hctl, hready,
        hnlt]

/-- Claim C4, witness (scenario D of the spec): a SETUP with 8 bytes
pending (UEBCHX=0, UEBCLX=8, RXSTPI set) read into an 8-byte buffer
returns 8, copies the 8 FIFO bytes, and issues the single UEINTX write
clearing RXOUTI and RXSTPI (value 0xD3). -/
theorem c4_read_control_spec_witness :
    read eps_ep0 ⟨false, false, true, 0, 8, (fun k => k + 10), 0⟩
        ⟨0, .Out⟩ (List.replicate 8 0)
      = ⟨.ok 8, [10, 11, 12, 13, 14, 15, 16, 17],
         [ueintx_clear_interrupts ((1 <<< 2) ||| (1 <<< 3))]⟩ := by
  have h := (c4_read_control_spec eps_ep0
    ⟨false, false, true, 0, 8, (fun k => k + 10), 0⟩ ⟨0, .Out⟩
    (List.replicate 8 0) ⟨.control, .Out, 8⟩ (by decide) (by decide)
    (by decide) (by decide) (by decide) (by decide)).2.2
  have h2 := (h (by simp)).2 (by decide)
  simpa using h2

/-- `npt_go n k` never exceeds `2 ^ k`. -/
theorem npt_go_le (n : Nat) : ∀ k, npt_go n k ≤ 2 ^ k := by
  intro k
  induction k with
  | zero => simp [npt_go]
  | succ k ih =>
    simp only [npt_go]
    split
    · exact Nat.le_refl _
    · exact Nat.le_trans ih (Nat.pow_le_pow_right (by norm_num) (Nat.le_succ k))

/-- `npt_go n k` is always a power of two with exponent at most `k`. -/
theorem npt_go_pow (n : Nat) : ∀ k, ∃ j, j ≤ k ∧ npt_go n k = 2 ^ j := by
  intro k
  induction k with
  | zero => exact ⟨0, Nat.le_refl _, rfl⟩
  | succ k ih =>
    simp only [npt_go]
    split
    · exact ⟨k + 1, Nat.le_refl _, rfl⟩
    · obtain ⟨j, hj, hp⟩ := ih
      exact ⟨j, Nat.le_trans hj (Nat.le_succ k), hp⟩

/-- Once the scan is below an exponent that already bounds `n`, taking
more steps changes nothing. -/
theorem npt_go_stable (n k : Nat) (h : n ≤ 2 ^ k) :
    ∀ j, npt_go n (k + j) = npt_go n k := by
  intro j
  induction j with
  | zero => rfl
  | succ j ih =>
    have hle : 2 ^ k ≤ 2 ^ (k + j) :=
      Nat.pow_le_pow_right (by norm_num) (Nat.le_add_right k j)
    have hnot : ¬ (2 ^ (k + j) < n) := by omega
    rw [show k + (j + 1) = (k + j) + 1 by omega]
    simp only [npt_go]
    rw [if_neg hnot, ih]

/-- For `n ≤ 256` the rounded-up power of two is `2 ^ j` for some
`j ≤ 8`. -/
theorem next_power_of_two_le_256 (n : Nat) (h : n ≤ 256) :
    ∃ j, j ≤ 8 ∧ next_power_of_two n = 2 ^ j := by
  have hst := npt_go_stable n 8 (by simpa using h) 8
  norm_num at hst
  obtain ⟨j, hj, hp⟩ := npt_go_pow n 8
  exact ⟨j, hj, by rw [next_power_of_two, hst, hp]⟩

/-- For `max_packet_size ≤ 256` the EPSIZE conversion succeeds and
never yields the 512-byte encoding: the rounded value lands in
{8, 16, 32, 64, 128, 256}. -/
theorem epsize_of_le_256 (m : Nat) (h : m ≤ 256) :
    (epsize_bits_from_max_packet_size m).isSome = true ∧
    epsize_bits_from_max_packet_size m ≠ some 6 := by
  obtain ⟨j, hj, hp⟩ := next_power_of_two_le_256 m h
  unfold epsize_bits_from_max_packet_size
  rw [hp]
  interval_cases j <;> decide

/-- Every slot capacity is at most 256 bytes. -/
theorem ENDPOINT_MAX_BUFSIZE_le_256 (i : Nat) :
    ENDPOINT_MAX_BUFSIZE i ≤ 256 := by
  unfold ENDPOINT_MAX_BUFSIZE
  match i with
  | 0 | 1 | 2 | 3 | 4 | 5 | 6 => decide
  | n + 7 => rw [List.getD_eq_default _ _ (by simp)]; omega

/-- The specified-address path of `alloc_ep` preserves the capacity
invariant of the endpoint table. -/
theorem alloc_ep_specified_tableOK {eps eps' : EndpointTable}
    {d : UsbDirection} {addr : EndpointAddress} {t : EndpointType}
    {mps : Nat} {r : Except UsbError EndpointAddress}
    (hok : tableOK eps)
    (h : alloc_ep_specified eps d addr t mps = some (r, eps')) :
    tableOK eps' := by
  unfold alloc_ep_specified at h
  split at h
  · cases h
  · split at h
    · cases h
      exact hok
    · split at h
      · cases h
        exact hok
      · split at h
        · cases h
          exact hok
        · rename_i hguard
          cases h
          intro i e hie
          by_cases hi : i = addr.index
          · subst hi
            rw [List.getD_eq_getElem?_getD,
              List.getElem?_set_self (by omega)] at hie
            simp only [Option.getD_some] at hie
            cases hie
            push_neg at hguard
            exact hguard.2
          · rw [List.getD_eq_getElem?_getD, List.getElem?_set_ne
              (by omega), ← List.getD_eq_getElem?_getD] at hie
            exact hok i e hie

/-- `alloc_ep` preserves the capacity invariant of the endpoint
table. -/
theorem alloc_ep_tableOK {eps eps' : EndpointTable} {d : UsbDirection}
    {a : Option EndpointAddress} {t : EndpointType} {mps iv : Nat}
    {r : Except UsbError EndpointAddress}
    (hok : tableOK eps)
    (h : alloc_ep eps d a t mps iv = some (r, eps')) : tableOK eps' := by
  unfold alloc_ep at h
  match a with
  | some addr => exact alloc_ep_specified_tableOK hok h
  | none =>
    revert h
    cases hf : find_free_index eps mps with
    | none =>
      intro h
      cases h
      exact hok
    | some index =>
      intro h
      exact alloc_ep_specified_tableOK hok h

/-- Every table reachable by `alloc_ep` calls satisfies the capacity
invariant. -/
theorem reachable_tableOK {eps : EndpointTable} (h : Reachable eps) :
    tableOK eps := by
  induction h with
  | init =>
    intro i e hie
    rw [List.getD_eq_getElem?_getD, List.getElem?_replicate] at hie
    split at hie <;> cases hie
  | step _ halloc ih => exact alloc_ep_tableOK ih halloc

/-- Claim C9: for every endpoint slot filled by any sequence of
`alloc_ep` calls, `max_packet_size` is at most 256 (the largest slot
capacity), so the EPSIZE conversion
`max(8, next_power_of_two(max_packet_size))` lands in
{8, 16, 32, 64, 128, 256} — it succeeds, never produces the 512
encoding, and the `unreachable` arm is never taken during
`configure_endpoint`. -/
theorem c9_reachable_configure_endpoint_safe (eps : EndpointTable)
    (i : Nat) (e : EndpointTableEntry) (hr : Reachable eps)
    (he : eps.getD i none = some e) :
    e.max_packet_size ≤ 256 ∧
    (epsize_bits_from_max_packet_size e.max_packet_size).isSome = true ∧
    epsize_bits_from_max_packet_size e.max_packet_size ≠ some 6 ∧
    (configure_endpoint i e).isSome = true := by
  have h1 := reachable_tableOK hr i e he
  have h2 : e.max_packet_size ≤ 256 :=
    Nat.le_trans h1 (ENDPOINT_MAX_BUFSIZE_le_256 i)
  obtain ⟨hsome, hne⟩ := epsize_of_le_256 _ h2
  refine ⟨h2, hsome, hne, ?_⟩
  simpa [configure_endpoint] using hsome

/-- Claim C9, witness: the table reached by allocating EP0 (Control,
8) and then EP1 (Bulk In, 64) is fine at slot 1. -/
theorem c9_reachable_configure_endpoint_safe_witness :
    (64 : Nat) ≤ 256 ∧
    (epsize_bits_from_max_packet_size 64).isSome = true ∧
    epsize_bits_from_max_packet_size 64 ≠ some 6 ∧
    (configure_endpoint 1 ⟨.bulk, .In, 64⟩).isSome = true :=
  c9_reachable_configure_endpoint_safe eps_ep0_ep1 1 ⟨.bulk, .In, 64⟩
    (Reachable.step
      (Reachable.step Reachable.init
        (show alloc_ep eps_empty .Out (some ⟨0, .Out⟩) .control 8 0
          = some (.ok ⟨0, .Out⟩, eps_ep0) by decide))
      (show alloc_ep eps_ep0 .In (some ⟨1, .In⟩) .bulk 64 0
        = some (.ok ⟨1, .In⟩, eps_ep0_ep1) by decide))
    (by decide)

/-- Every index produced by `active_from n` is at least `n`. -/
theorem active_from_lb :
    ∀ (l : List (Option EndpointTableEntry)) (n : Nat)
      (x : Nat × EndpointTableEntry), x ∈ active_from n l → n ≤ x.1 := by
  intro l
  induction l with
  | nil =>
    intro n x h
    simp [active_from] at h
  | cons o rest ih =>
    intro n x h
    cases o with
    | none =>
      have := ih (n + 1) x (by simpa [active_from] using h)
      omega
    | some e =>
      simp only [active_from, List.mem_cons] at h
      rcases h with h | h
      · rw [h]
      · have := ih (n + 1) x h
        omega

/-- Every index produced by `active_from n l` is below `n` plus the
length of `l`. -/
theorem active_from_ub :
    ∀ (l : List (Option EndpointTableEntry)) (n : Nat)
      (x : Nat × EndpointTableEntry), x ∈ active_from n l →
      x.1 < n + l.length := by
  intro l
  induction l with
  | nil =>
    intro n x h
    simp [active_from] at h
  | cons o rest ih =>
    intro n x h
    cases o with
    | none =>
      have := ih (n + 1) x (by simpa [active_from] using h)
      simp only [List.length_cons]
      omega
    | some e =>
      simp only [active_from, List.mem_cons] at h
      simp only [List.length_cons]
      rcases h with h | h
      · rw [h]
        omega
      · have := ih (n + 1) x h
        omega

/-- The indices produced by `active_from` are strictly increasing. -/
theorem active_from_pairwise :
    ∀ (l : List (Option EndpointTableEntry)) (n : Nat),
      ((active_from n l).map Prod.fst).Pairwise (· < ·) := by
  intro l
  induction l with
  | nil =>
    intro n
    simp [active_from]
  | cons o rest ih =>
    intro n
    cases o with
    | none => simpa [active_from] using ih (n + 1)
    | some e =>
      simp only [active_from, List.map_cons, List.pairwise_cons]
      refine ⟨?_, ih (n + 1)⟩
      intro y hy
      obtain ⟨p, hp, rfl⟩ := List.mem_map.mp hy
      have := active_from_lb rest (n + 1) p hp
      omega

/-- A filled table slot appears in `active_from`. -/
theorem active_from_mem_getD :
    ∀ (l : List (Option EndpointTableEntry)) (n i : Nat)
      (e : EndpointTableEntry), l.getD i none = some e →
      (n + i, e) ∈ active_from n l := by
  intro l
  induction l with
  | nil =>
    intro n i e h
    simp [List.getD] at h
  | cons o rest ih =>
    intro n i e h
    cases i with
    | zero =>
      rw [List.getD_cons_zero] at h
      subst h
      simp [active_from]
    | succ j =>
      rw [List.getD_cons_succ] at h
      have hm := ih (n + 1) j e h
      cases o with
      | none =>
        simpa [active_from, show n + 1 + j = n + (j + 1) by omega] using hm
      | some e' =>
        simp only [active_from, List.mem_cons]
        right
        simpa [show n + 1 + j = n + (j + 1) by omega] using hm

/-- Conversely, every member of `active_from` comes from a filled
slot. -/
theorem active_from_mem_imp :
    ∀ (l : List (Option EndpointTableEntry)) (n : Nat)
      (p : Nat × EndpointTableEntry), p ∈ active_from n l →
      ∃ j, p.1 = n + j ∧ l.getD j none = some p.2 := by
  intro l
  induction l with
  | nil =>
    intro n p h
    simp [active_from] at h
  | cons o rest ih =>
    intro n p h
    cases o with
    | none =>
      obtain ⟨j, hj, hg⟩ := ih (n + 1) p (by simpa [active_from] using h)
      exact ⟨j + 1, by omega, by rwa [List.getD_cons_succ]⟩
    | some e =>
      simp only [active_from, List.mem_cons] at h
      rcases h with h | h
      · exact ⟨0, by simp [h], by rw [h, List.getD_cons_zero]⟩
      · obtain ⟨j, hj, hg⟩ := ih (n + 1) p h
        exact ⟨j + 1, by omega, by rwa [List.getD_cons_succ]⟩

/-- When `f` succeeds on every element, `traverse_option f`
succeeds. -/
theorem traverse_option_isSome {α β : Type} (f : α → Option β) :
    ∀ l : List α, (∀ a ∈ l, (f a).isSome = true) →
      ∃ ys, traverse_option f l = some ys := by
  intro l
  induction l with
  | nil => exact fun _ => ⟨[], rfl⟩
  | cons a l ih =>
    intro h
    obtain ⟨b, hb⟩ := Option.isSome_iff_exists.mp (h a (by simp))
    obtain ⟨ys, hys⟩ := ih (fun x hx => h x (by simp [hx]))
    exact ⟨b :: ys, by simp [traverse_option, hb, hys]⟩

/-- The executable table check implies the capacity invariant. -/
theorem tableOKb_imp (eps : EndpointTable) (h : tableOKb eps = true) :
    tableOK eps := by
  intro i e hie
  have hm := active_from_mem_getD eps 0 i e hie
  rw [Nat.zero_add] at hm
  have := List.all_eq_true.mp h ⟨i, e⟩ (by simpa [active_endpoints] using hm)
  simpa using this

/-- Claim C2, counterexample.  On the table with EP0 allocated, the
first recorded write of `enable` is the PLL PINDIV configuration, not
UHWCON.UVREGE=1: the executed code performs the whole PLL bring-up
before the pad-regulator and USBE writes (the UVREGE-first order of
the claim matches only code that is commented out in the source), and
no write sets USBE together with FRZCLK. -/
theorem c2_enable_order_counterexample :
    enable true eps_ep0 = some enable_trace_ep0 ∧
    enable_trace_ep0.head? = some (RegWrite.pllcsr_pindiv true) ∧
    RegWrite.pllcsr_pindiv true ≠ RegWrite.uhwcon_uvrege_set := by
  refine ⟨by decide, by decide, by decide⟩

/-- Claim C2, amended: for every endpoint table satisfying the
capacity invariant, `enable` records exactly, in order: the PLL
bring-up (PINDIV per clock marker, PLLFRQ reset, PLLE set, spin until
PLOCK); then UHWCON.UVREGE=1; then USBCON.USBE=1 together with
OTGPADE=1; the 1 ms delay; then FRZCLK=0 together with VBUSTE=1; then
one full programming sequence per allocated endpoint in strictly
ascending index order; then UDCON.DETACH=0; then UDIEN.EORSTE=1 with
SOFE=1. -/
theorem c2_enable_trace_order (hs : Bool) (eps : EndpointTable)
    (htab : tableOK eps) :
    (∃ cfgs,
      traverse_option (fun p => configure_endpoint p.1 p.2)
          (active_endpoints eps)
        = some cfgs ∧
      enable hs eps
        = some (pll_bringup hs ++ enable_mid ++ cfgs.flatten
            ++ enable_tail)) ∧
    ((active_endpoints eps).map Prod.fst).Pairwise (· < ·) := by
  constructor
  · have hall : ∀ p ∈ active_endpoints eps,
        ((fun p : Nat × EndpointTableEntry =>
          configure_endpoint p.1 p.2) p).isSome = true := by
      intro p hp
      obtain ⟨j, hj, hg⟩ := active_from_mem_imp eps 0 p hp
      have h1 := htab j p.2 hg
      have h2 : p.2.max_packet_size ≤ 256 :=
        Nat.le_trans h1 (ENDPOINT_MAX_BUFSIZE_le_256 j)
      obtain ⟨hsome, _⟩ := epsize_of_le_256 _ h2
      simpa [configure_endpoint] using hsome
    obtain ⟨cfgs, hcfgs⟩ := traverse_option_isSome _ _ hall
    refine ⟨cfgs, hcfgs, ?_⟩
    unfold enable
    rw [hcfgs]
    rfl
  · exact active_from_pairwise eps 0

/-- Claim C2, witness for the amended theorem, on the EP0-only
table. -/
theorem c2_enable_trace_order_witness :
    (∃ cfgs,
      traverse_option (fun p => configure_endpoint p.1 p.2)
          (active_endpoints eps_ep0)
        = some cfgs ∧
      enable true eps_ep0
        = some (pll_bringup true ++ enable_mid ++ cfgs.flatten
            ++ enable_tail)) ∧
    ((active_endpoints eps_ep0).map Prod.fst).Pairwise (· < ·) :=
  c2_enable_trace_order true eps_ep0 (tableOKb_imp eps_ep0 (by decide))

/-- Bit `j` of `1 <<< j` is set. -/
theorem testBit_one_shiftLeft_self (j : Nat) :
    (1 <<< j).testBit j = true := by
  rw [Nat.shiftLeft_eq, one_mul]
  exact Nat.testBit_two_pow_self

/-- Every other bit of `1 <<< j` is clear. -/
theorem testBit_one_shiftLeft_ne {i j : Nat} (h : i ≠ j) :
    (1 <<< j).testBit i = false := by
  rw [Nat.shiftLeft_eq, one_mul]
  exact Nat.testBit_two_pow_of_ne (Ne.symm h)

/-- The low eight bits of 255 are all set. -/
theorem testBit_255 {i : Nat} (h : i < 8) : (255 : Nat).testBit i = true := by
  interval_cases i <;> decide

/-- Clearing bit `i` through the 8-bit mask `255 ^^^ (1 <<< i)` indeed
clears it. -/
theorem clear_bit_testBit_self (p i : Nat) (hi : i < 8) :
    (p &&& (255 ^^^ (1 <<< i))).testBit i = false := by
  rw [Nat.testBit_and, Nat.testBit_xor, testBit_255 hi,
    testBit_one_shiftLeft_self]
  simp

/-- Clearing bit `j` through the 8-bit mask leaves every other low bit
alone. -/
theorem clear_bit_testBit_other (p j i : Nat) (hi : i < 8) (hij : i ≠ j) :
    (p &&& (255 ^^^ (1 <<< j))).testBit i = p.testBit i := by
  rw [Nat.testBit_and, Nat.testBit_xor, testBit_255 hi,
    testBit_one_shiftLeft_ne hij]
  simp

/-- ORing in bit `i` sets it. -/
theorem or_one_shiftLeft_testBit_self (c i : Nat) :
    (c ||| (1 <<< i)).testBit i = true := by
  rw [Nat.testBit_or, testBit_one_shiftLeft_self]
  simp

/-- ORing in bit `j` leaves other bits alone. -/
theorem or_one_shiftLeft_testBit_other (c j i : Nat) (hij : i ≠ j) :
    (c ||| (1 <<< j)).testBit i = c.testBit i := by
  rw [Nat.testBit_or, testBit_one_shiftLeft_ne hij]
  simp

/-- A number with a set bit is nonzero. -/
theorem testBit_ne_zero {n i : Nat} (h : n.testBit i = true) : n ≠ 0 := by
  intro h0
  rw [h0, Nat.zero_testBit] at h
  cases h

/-- The source's `pending & (1 << i) != 0` test reads bit `i`. -/
theorem and_one_shiftLeft_ne_zero (p i : Nat) :
    (p &&& (1 <<< i) ≠ 0) ↔ p.testBit i = true := by
  constructor
  · intro h
    by_contra hb
    apply h
    apply Nat.eq_of_testBit_eq
    intro k
    rw [Nat.testBit_and, Nat.zero_testBit]
    by_cases hk : k = i
    · subst hk
      rw [Bool.not_eq_true] at hb
      rw [hb]
      rfl
    · rw [testBit_one_shiftLeft_ne hk]
      exact Bool.and_false _
  · intro h h0
    have h2 := congrArg (fun m => m.testBit i) h0
    simp only [Nat.testBit_and, Nat.zero_testBit, h,
      testBit_one_shiftLeft_self, Bool.true_and] at h2
    cases h2

/-- A scan step at another index leaves low `pending_ins` bits
alone. -/
theorem step_pending_testBit_other (hw : PollHw) (idx : Nat)
    (acc : ScanOut) {i : Nat} (hi : i < 8) (hne : i ≠ idx) :
    (poll_scan_step hw idx acc).pending.testBit i
      = acc.pending.testBit i := by
  unfold poll_scan_step
  dsimp only
  split
  · exact clear_bit_testBit_other _ idx i hi hne
  · rfl

/-- A scan step never sets a `pending_ins` bit. -/
theorem step_pending_testBit_false (hw : PollHw) (idx : Nat)
    (acc : ScanOut) (i : Nat) (h : acc.pending.testBit i = false) :
    (poll_scan_step hw idx acc).pending.testBit i = false := by
  unfold poll_scan_step
  dsimp only
  split
  · rw [Nat.testBit_and, h]
    rfl
  · exact h

/-- A scan step never clears an `ep_in_complete` bit. -/
theorem step_c_testBit_mono (hw : PollHw) (idx : Nat) (acc : ScanOut)
    (i : Nat) (h : acc.ep_in_complete.testBit i = true) :
    (poll_scan_step hw idx acc).ep_in_complete.testBit i = true := by
  unfold poll_scan_step
  dsimp only
  split
  · rw [Nat.testBit_or, h]
    rfl
  · exact h

/-- With the `pending_ins` bit clear, a scan step reports nothing new
for that endpoint. -/
theorem step_c_testBit_of_pending_false (hw : PollHw) (idx : Nat)
    (acc : ScanOut) (i : Nat) (hp : acc.pending.testBit i = false) :
    (poll_scan_step hw idx acc).ep_in_complete.testBit i
      = acc.ep_in_complete.testBit i := by
  unfold poll_scan_step
  dsimp only
  by_cases hidx : i = idx
  · subst hidx
    rw [if_neg]
    intro hc
    have := (and_one_shiftLeft_ne_zero _ _).mp hc.1
    rw [hp] at this
    cases this
  · split
    · exact or_one_shiftLeft_testBit_other _ idx i hidx
    · rfl

/-- The scan never sets a `pending_ins` bit: once clear, it stays
clear. -/
theorem poll_scan_pending_false_mono (hw : PollHw) :
    ∀ (l : List (Nat × EndpointTableEntry)) (acc : ScanOut) (i : Nat),
      acc.pending.testBit i = false →
      (poll_scan hw l acc).pending.testBit i = false := by
  intro l
  induction l with
  | nil =>
    intro acc i h
    simpa [poll_scan] using h
  | cons x rest ih =>
    intro acc i h
    rcases x with ⟨idx, e⟩
    simp only [poll_scan]
    split
    · exact h
    · exact ih _ i (step_pending_testBit_false hw idx acc i h)

/-- The scan never clears an `ep_in_complete` bit. -/
theorem poll_scan_c_mono (hw : PollHw) :
    ∀ (l : List (Nat × EndpointTableEntry)) (acc : ScanOut) (i : Nat),
      acc.ep_in_complete.testBit i = true →
      (poll_scan hw l acc).ep_in_complete.testBit i = true := by
  intro l
  induction l with
  | nil =>
    intro acc i h
    simpa [poll_scan] using h
  | cons x rest ih =>
    intro acc i h
    rcases x with ⟨idx, e⟩
    simp only [poll_scan]
    split
    · exact h
    · exact ih _ i (step_c_testBit_mono hw idx acc i h)

/-- With the `pending_ins` bit clear at entry, the scan leaves that
`ep_in_complete` bit exactly as it found it. -/
theorem poll_scan_c_of_pending_false (hw : PollHw) :
    ∀ (l : List (Nat × EndpointTableEntry)) (acc : ScanOut) (i : Nat),
      acc.pending.testBit i = false →
      (poll_scan hw l acc).ep_in_complete.testBit i
        = acc.ep_in_complete.testBit i := by
  intro l
  induction l with
  | nil =>
    intro acc i h
    simp [poll_scan]
  | cons x rest ih =>
    intro acc i h
    rcases x with ⟨idx, e⟩
    simp only [poll_scan]
    split
    · rfl
    · rw [ih _ i (step_pending_testBit_false hw idx acc i h),
        step_c_testBit_of_pending_false hw idx acc i h]

/-- The core of claim C6: when the scan reaches an endpoint whose
`pending_ins` bit is set and whose TXINI reads set, the final
`ep_in_complete` mask has that bit set and the final `pending_ins` has
it cleared. -/
theorem poll_scan_hit (hw : PollHw) :
    ∀ (l : List (Nat × EndpointTableEntry)) (acc : ScanOut) (i : Nat)
      (e : EndpointTableEntry), i < 8 → hw.frzclk = false →
      (∀ x ∈ l, x.1 < 7) → hw.txini i = true → (i, e) ∈ l →
      acc.pending.testBit i = true →
      (poll_scan hw l acc).ep_in_complete.testBit i = true ∧
      (poll_scan hw l acc).pending.testBit i = false := by
  intro l
  induction l with
  | nil =>
    intro acc i e _ _ _ _ hm _
    simp at hm
  | cons x rest ih =>
    intro acc i e hi hfrz hlt htx hm hp
    rcases x with ⟨idx, e'⟩
    have hidx7 : idx < 7 := hlt (idx, e') (by simp)
    have hsc : set_current_endpoint hw.frzclk idx = .ok () := by
      unfold set_current_endpoint
      rw [if_neg (by simp only [MAX_ENDPOINTS]; omega),
        if_neg (by simp [hfrz])]
    simp only [poll_scan, hsc]
    by_cases hii : idx = i
    · subst hii
      have hcond : acc.pending &&& (1 <<< idx) ≠ 0 ∧ hw.txini idx = true :=
        ⟨(and_one_shiftLeft_ne_zero _ _).mpr hp, htx⟩
      have hc' : (poll_scan_step hw idx acc).ep_in_complete.testBit idx
          = true := by
        unfold poll_scan_step
        dsimp only
        rw [if_pos hcond]
        exact or_one_shiftLeft_testBit_self _ _
      have hp' : (poll_scan_step hw idx acc).pending.testBit idx
          = false := by
        unfold poll_scan_step
        dsimp only
        rw [if_pos hcond]
        exact clear_bit_testBit_self _ _ hi
      exact ⟨poll_scan_c_mono hw rest _ _ hc',
        poll_scan_pending_false_mono hw rest _ _ hp'⟩
    · have hne : i ≠ idx := fun h => hii h.symm
      have hp' : (poll_scan_step hw idx acc).pending.testBit i = true := by
        rw [step_pending_testBit_other hw idx acc hi hne]
        exact hp
      have hm' : (i, e) ∈ rest := by
        rcases List.mem_cons.mp hm with h | h
        · exact absurd ((Prod.mk.injEq _ _ _ _).mp h).1.symm hii
        · exact h
      exact ih _ i e hi hfrz (fun x hx => hlt x (by simp [hx])) htx hm' hp'

/-- A successful `write` ORs the endpoint bit into `pending_ins`. -/
theorem write_success_pending {eps : EndpointTable} {pending : Nat}
    {whw : WriteHw} {addr : EndpointAddress} {buf : List Nat}
    {wout : WriteOut} {n : Nat}
    (hw : write eps pending whw addr buf = some wout)
    (hok : wout.result = .ok n) :
    wout.pending = pending ||| (1 <<< addr.index) := by
  unfold write at hw
  split at hw
  · cases hw
    simp at hok
  · split at hw
    · cases hw
    · split at hw
      · cases hw
      · split at hw
        · cases hw
          simp at hok
        · split at hw
          · split at hw
            · cases hw
              simp at hok
            · split at hw
              · cases hw
                simp at hok
              · cases hw
                rfl
          · split at hw
            · cases hw
              simp at hok
            · dsimp only at hw
              split at hw
              · cases hw
                simp at hok
              · cases hw
                rfl

/-- With no device-level event pending and the clock running, `poll`
reduces to the per-endpoint scan. -/
theorem poll_eq_scan (eps : EndpointTable) (pending : Nat)
    (phw : PollHw) (hv : phw.vbusti = false)
    (hs : (phw.suspi && phw.suspe) = false)
    (hk : (phw.wakeupi && phw.wakeupe) = false)
    (heo : phw.eorsti = false) (hfrz : phw.frzclk = false) :
    poll eps pending phw =
      (if (poll_scan phw (active_endpoints eps)
            ⟨0, 0, 0, pending⟩).ep_out
          ||| (poll_scan phw (active_endpoints eps)
            ⟨0, 0, 0, pending⟩).ep_setup
          ||| (poll_scan phw (active_endpoints eps)
            ⟨0, 0, 0, pending⟩).ep_in_complete ≠ 0 then
        (PollResult.data
          (poll_scan phw (active_endpoints eps) ⟨0, 0, 0, pending⟩).ep_out
          (poll_scan phw (active_endpoints eps)
            ⟨0, 0, 0, pending⟩).ep_in_complete
          (poll_scan phw (active_endpoints eps)
            ⟨0, 0, 0, pending⟩).ep_setup,
         (poll_scan phw (active_endpoints eps) ⟨0, 0, 0, pending⟩).pending)
      else (PollResult.none,
        (poll_scan phw (active_endpoints eps)
          ⟨0, 0, 0, pending⟩).pending)) := by
  simp [poll, hv, hs, hk, heo, hfrz]

/-- Claim C6: a successful `write` to endpoint `i` sets bit `i` of
`pending_ins`; a `poll` that finds TXINI set then reports
`ep_in_complete` for `i` and clears exactly that pending bit; a second
`poll` without another `write` no longer reports `ep_in_complete` for
`i`. -/
theorem c6_pending_ins_write_poll (eps : EndpointTable) (p0 : Nat)
    (whw : WriteHw) (phw : PollHw) (i n : Nat) (buf : List Nat)
    (e : EndpointTableEntry) (wout : WriteOut)
    (h7 : eps.length = 7)
    (he : eps.getD i none = some e)
    (hwr : write eps p0 whw ⟨i, .In⟩ buf = some wout)
    (hok : wout.result = .ok n)
    (hfrz : phw.frzclk = false)
    (hv : phw.vbusti = false)
    (hs : (phw.suspi && phw.suspe) = false)
    (hk : (phw.wakeupi && phw.wakeupe) = false)
    (heo : phw.eorsti = false)
    (htx : phw.txini i = true) :
    wout.pending.testBit i = true ∧
    (ep_in_complete_of (poll eps wout.pending phw).1).testBit i = true ∧
    ((poll eps wout.pending phw).2).testBit i = false ∧
    (ep_in_complete_of
      (poll eps ((poll eps wout.pending phw).2) phw).1).testBit i
      = false := by
  have hi7 : i < 7 := by
    have := getD_some_lt_length he
    omega
  have hi8 : i < 8 := by omega
  have hpend := write_success_pending hwr hok
  have hbit : wout.pending.testBit i = true := by
    rw [hpend]
    exact or_one_shiftLeft_testBit_self _ _
  have hmem : (i, e) ∈ active_endpoints eps := by
    have := active_from_mem_getD eps 0 i e he
    rwa [Nat.zero_add] at this
  have hlt : ∀ x ∈ active_endpoints eps, x.1 < 7 := by
    intro x hx
    have := active_from_ub eps 0 x hx
    omega
  have hscan := poll_scan_hit phw (active_endpoints eps)
    ⟨0, 0, 0, wout.pending⟩ i e hi8 hfrz hlt htx hmem hbit
  have hcbit := hscan.1
  have hpbit := hscan.2
  have hne : (poll_scan phw (active_endpoints eps)
        ⟨0, 0, 0, wout.pending⟩).ep_out
      ||| (poll_scan phw (active_endpoints eps)
        ⟨0, 0, 0, wout.pending⟩).ep_setup
      ||| (poll_scan phw (active_endpoints eps)
        ⟨0, 0, 0, wout.pending⟩).ep_in_complete ≠ 0 := by
    apply testBit_ne_zero (i := i)
    rw [Nat.testBit_or, hcbit]
    simp
  have hpoll1 : poll eps wout.pending phw =
      (PollResult.data
        (poll_scan phw (active_endpoints eps)
          ⟨0, 0, 0, wout.pending⟩).ep_out
        (poll_scan phw (active_endpoints eps)
          ⟨0, 0, 0, wout.pending⟩).ep_in_complete
        (poll_scan phw (active_endpoints eps)
          ⟨0, 0, 0, wout.pending⟩).ep_setup,
       (poll_scan phw (active_endpoints eps)
         ⟨0, 0, 0, wout.pending⟩).pending) := by
    rw [poll_eq_scan eps wout.pending phw hv hs hk heo hfrz,
      if_pos hne]
  refine ⟨hbit, ?_, ?_, ?_⟩
  · rw [hpoll1]
    exact hcbit
  · rw [hpoll1]
    exact hpbit
  · rw [hpoll1]
    have hc2 : (poll_scan phw (active_endpoints eps)
        ⟨0, 0, 0, (poll_scan phw (active_endpoints eps)
          ⟨0, 0, 0, wout.pending⟩).pending⟩).ep_in_complete.testBit i
        = false := by
      rw [poll_scan_c_of_pending_false phw (active_endpoints eps)
        ⟨0, 0, 0, (poll_scan phw (active_endpoints eps)
          ⟨0, 0, 0, wout.pending⟩).pending⟩ i hpbit]
      exact Nat.zero_testBit i
    rw [poll_eq_scan eps _ phw hv hs hk heo hfrz]
    split
    · simpa [ep_in_complete_of] using hc2
    · simp [ep_in_complete_of]

/-- Claim C6, witness: writing 3 bytes to Bulk-In endpoint 1 and then
polling with TXINI set reports `ep_in_complete` bit 1 once and clears
the pending bit; a second poll reports nothing for endpoint 1. -/
theorem c6_pending_ins_write_poll_witness :
    ((write eps_ep0_ep1 0 ⟨false, true, 64⟩ ⟨1, .In⟩ [1, 2, 3]).getD
        ⟨.error .WouldBlock, [], [], 0⟩).pending.testBit 1 = true ∧
    (ep_in_complete_of (poll eps_ep0_ep1
      ((write eps_ep0_ep1 0 ⟨false, true, 64⟩ ⟨1, .In⟩ [1, 2, 3]).getD
        ⟨.error .WouldBlock, [], [], 0⟩).pending phw_txini).1).testBit 1
      = true ∧
    ((poll eps_ep0_ep1
      ((write eps_ep0_ep1 0 ⟨false, true, 64⟩ ⟨1, .In⟩ [1, 2, 3]).getD
        ⟨.error .WouldBlock, [], [], 0⟩).pending phw_txini).2).testBit 1
      = false ∧
    (ep_in_complete_of (poll eps_ep0_ep1
      ((poll eps_ep0_ep1
        ((write eps_ep0_ep1 0 ⟨false, true, 64⟩ ⟨1, .In⟩ [1, 2, 3]).getD
          ⟨.error .WouldBlock, [], [], 0⟩).pending phw_txini).2)
      phw_txini).1).testBit 1 = false :=
  c6_pending_ins_write_poll eps_ep0_ep1 0 ⟨false, true, 64⟩ phw_txini
    1 3 [1, 2, 3] ⟨.bulk, .In, 64⟩
    ((write eps_ep0_ep1 0 ⟨false, true, 64⟩ ⟨1, .In⟩ [1, 2, 3]).getD
      ⟨.error .WouldBlock, [], [], 0⟩)
    (by decide) (by decide) (by decide) (by decide) rfl rfl rfl rfl rfl
    rfl

end AvrUsb
